import Mathlib

/-!
Verification of the reference Turing-machine engine
(`src/autogradetm/turing_machine.py`).

Python strings are modelled as `List Char`, Python `int` as `Int`,
Python `set[str]` of single characters as `Finset Char`, and the
transition `dict` as an association list with in-place-overwriting
insertion (`dictInsert`) and first-match lookup (`dictLookup`), which
together give exactly Python's dict lookup semantics.  Fallible Python
operations (list indexing, `int(...)`, raised exceptions) are modelled
with `Option` / explicit result constructors.
-/

/-- `Direction(IntEnum)`: L = -1, N = 0, R = 1. -/
inductive Direction where
  | L
  | N
  | R
deriving DecidableEq, Repr, Inhabited

/-- The integer value of a `Direction` (its `IntEnum` value). -/
def Direction.toInt : Direction → Int
  | .L => -1
  | .N => 0
  | .R => 1

/-- `Direction.parse`: only the literal tokens "L", "N", "R" are accepted;
anything else raises `ValueError` (modelled as `none`). -/
def Direction.parse : List Char → Option Direction
  | ['L'] => some Direction.L
  | ['N'] => some Direction.N
  | ['R'] => some Direction.R
  | _ => none

/-- Right-strip of the blank symbol, modelling Python `str.rstrip("B")`. -/
def rstripB (l : List Char) : List Char :=
  (l.reverse.dropWhile (fun c => c = 'B')).reverse

/-- Left-strip of the blank symbol, modelling Python `str.lstrip("B")`. -/
def lstripB (l : List Char) : List Char :=
  l.dropWhile (fun c => c = 'B')

/-- `Configuration`: state, tape strictly left of the head, tape at and right
of the head.  The dataclass `__post_init__` strips leading/trailing blanks,
so every constructed value is trimmed; `Configuration.make` is the only
constructor used, mirroring that. -/
structure Configuration where
  state : Int
  left : List Char
  right : List Char
deriving DecidableEq, Repr

/-- Construction of a `Configuration`, including the `__post_init__`
trimming of leading blanks on `left` and trailing blanks on `right`. -/
def Configuration.make (state : Int) (left right : List Char) : Configuration :=
  { state := state, left := lstripB left, right := rstripB right }

/-- The decimal digit character for `n < 10` (Python digit rendering). -/
def digitChar (n : Nat) : Char := Char.ofNat (48 + n)

/-- Fuel-driven decimal rendering of a natural number, most significant
digit first; the fuel is always sufficient when called with `n + 1`. -/
def natDigitsCore : Nat → Nat → List Char → List Char
  | 0, _, acc => acc
  | fuel + 1, n, acc =>
    if n < 10 then digitChar n :: acc
    else natDigitsCore fuel (n / 10) (digitChar (n % 10) :: acc)

/-- Decimal digits of a natural number (e.g. `natDigits 120 = ['1','2','0']`). -/
def natDigits (n : Nat) : List Char := natDigitsCore (n + 1) n []

/-- Python `str(i)` for an `int`: optional minus sign followed by decimal
digits. -/
def intStr (i : Int) : List Char :=
  if i < 0 then '-' :: natDigits (-i).toNat else natDigits i.toNat

/-- Value of a nonempty all-digit character list, else `none`.  Helper for
the model of Python `int(...)`. -/
def digitsVal (l : List Char) : Option Nat :=
  if l ≠ [] ∧ l.all Char.isDigit then
    some (l.foldl (fun a c => 10 * a + (c.toNat - 48)) 0)
  else none

/-- Model of Python `int(str)` on the strings arising in this program:
an optional single sign followed by a nonempty run of decimal digits;
anything else raises `ValueError` (modelled as `none`). -/
def pyInt : List Char → Option Int
  | '-' :: rest => (digitsVal rest).map (fun n => -(n : Int))
  | '+' :: rest => (digitsVal rest).map (fun n => (n : Int))
  | l => (digitsVal l).map (fun n => (n : Int))

/-- `Configuration.__str__`: `...<left>[<state>]<right>...`. -/
def Configuration.str (c : Configuration) : List Char :=
  ['.', '.', '.'] ++ c.left ++ ['['] ++ intStr c.state ++ [']'] ++ c.right ++ ['.', '.', '.']

/-- Which buffer the tolerant scanner is currently appending to: the
`left`, `num` or `right` list of `Configuration.parse`. -/
inductive Buf where
  | left
  | num
  | right
deriving DecidableEq, Repr

/-- The scanner state of `Configuration.parse`: the three accumulation
buffers plus the active one (`curr` in the source). -/
structure ScanSt where
  left : List Char
  num : List Char
  right : List Char
  curr : Buf
deriving DecidableEq, Repr

/-- `curr.append(char)`: append a character to the active buffer. -/
def ScanSt.push (st : ScanSt) (c : Char) : ScanSt :=
  match st.curr with
  | .left => { st with left := st.left ++ [c] }
  | .num => { st with num := st.num ++ [c] }
  | .right => { st with right := st.right ++ [c] }

/-- The opening-bracket characters `[|({` of `Configuration.parse`. -/
def openBrackets : List Char := ['[', '|', '(', Char.ofNat 123]

/-- The closing-bracket characters `]|)}` of `Configuration.parse`. -/
def closeBrackets : List Char := [']', '|', ')', Char.ofNat 125]

/-- One iteration of the character loop of `Configuration.parse`; an
`Except.error c` is the `ValueError` naming the offending character. -/
def scanChar (alphabet : Finset Char) (st : ScanSt) (c : Char) : Except Char ScanSt :=
  if (st.curr = Buf.num ∧ c.isDigit = true) ∨ c ∈ alphabet then .ok (st.push c)
  else if c = ' ' ∨ c = '.' ∨ (st.curr = Buf.num ∧ c = 'q') then .ok st
  else if c ∈ openBrackets then .ok { st with curr := Buf.num }
  else if c ∈ closeBrackets then .ok { st with curr := Buf.right }
  else .error c

/-- Result of `Configuration.parse`: success, the `ValueError` raised by
the scan loop (carrying the offending character), or the `ValueError`
raised by `int("".join(num))`. -/
inductive ParseResult where
  | ok (c : Configuration)
  | badChar (c : Char)
  | badInt
deriving DecidableEq, Repr

/-- `Configuration.parse`: scan the characters left to right, then parse
the collected digits and build the (trimmed) configuration. -/
def Configuration.parse (data : List Char) (alphabet : Finset Char) : ParseResult :=
  match data.foldlM (scanChar alphabet) ⟨[], [], [], Buf.left⟩ with
  | .error c => .badChar c
  | .ok st =>
    match pyInt st.num with
    | none => .badInt
    | some n => .ok (Configuration.make n st.left st.right)

/-- `Tape`: two growable backing lists (`_left` for negative offsets,
`_right` for offsets ≥ 0) and the current head offset. -/
structure Tape where
  _left : List Char
  _right : List Char
  _pos : Int
deriving DecidableEq, Repr

/-- `Tape.__init__`: the input placed at offset 0 (a single blank cell if
the input is empty, since an empty Python string is falsy). -/
def Tape.init (input : List Char) : Tape :=
  { _left := [], _right := if input = [] then ['B'] else input, _pos := 0 }

/-- `Tape.read`: indexing a backing list out of range raises `IndexError`
(modelled as `none`). -/
def Tape.read (t : Tape) : Option Char :=
  if t._pos < 0 then t._left.get? (-t._pos - 1).toNat
  else t._right.get? t._pos.toNat

/-- `Tape.write`: replace the symbol at the head; out-of-range assignment
raises `IndexError` (modelled as `none`). -/
def Tape.write (t : Tape) (symbol : Char) : Option Tape :=
  if t._pos < 0 then
    if (-t._pos - 1).toNat < t._left.length then
      some { t with _left := t._left.set (-t._pos - 1).toNat symbol }
    else none
  else
    if t._pos.toNat < t._right.length then
      some { t with _right := t._right.set t._pos.toNat symbol }
    else none

/-- `Tape.move`: shift the head by the direction's integer value, appending
one blank cell to the relevant backing list if the new head position lies
outside the materialized extent. -/
def Tape.move (t : Tape) (direction : Direction) : Tape :=
  let pos := t._pos + direction.toInt
  if pos < -(t._left.length : Int) then
    { t with _pos := pos, _left := t._left ++ ['B'] }
  else if pos ≥ (t._right.length : Int) then
    { t with _pos := pos, _right := t._right ++ ['B'] }
  else
    { t with _pos := pos }

/-- `Tape.configuration`: the content strictly left of the head and the
content at and right of the head, over exactly the materialized extent,
assembled into a trimmed `Configuration`.  The two `islice` calls of the
source consume `len(_left) + min(pos, 0)` symbols of the reversed left
list and `max(pos, 0)` symbols of the right list; the remainders of the
two iterators form the right-of-head part.  (For well-formed tapes both
slice counts are nonnegative, matching `islice`.) -/
def Tape.configuration (t : Tape) (state : Int) : Configuration :=
  let leftRev := t._left.reverse
  let nLeft := ((t._left.length : Int) + min t._pos 0).toNat
  let nRight := (max t._pos 0).toNat
  Configuration.make state
    (leftRev.take nLeft ++ t._right.take nRight)
    (leftRev.drop nLeft ++ t._right.drop nRight)

/-- `Tape.read_right`: the symbols from the current head position rightward
to the edge of materialized storage — `_left[i]` for
`i in range(-min(pos, 0) - 1, -1, -1)` then `_right[i]` for
`i in range(max(pos, 0), len(_right))`; an out-of-range index raises
`IndexError` (modelled as `none`, unreachable for well-formed tapes). -/
def Tape.read_right (t : Tape) : Option (List Char) := do
  let leftPart ← ((List.range (-min t._pos 0).toNat).reverse).mapM
    (fun i => t._left.get? i)
  let rightPart ← ((List.range t._right.length).drop (max t._pos 0).toNat).mapM
    (fun i => t._right.get? i)
  return leftPart ++ rightPart

/-- The symbol at an arbitrary integer offset, viewing the tape as the
conceptually infinite sequence it models: unmaterialized cells are blank.
(Specification-level observation function used only in theorems.) -/
def Tape.cellAt (t : Tape) (i : Int) : Char :=
  if i < 0 then t._left.getD (-i - 1).toNat 'B'
  else t._right.getD i.toNat 'B'

/-- Well-formedness of a tape: the head lies within the materialized
extent.  Holds for the initial tape and is preserved by every operation. -/
def Tape.WF (t : Tape) : Prop :=
  -(t._left.length : Int) ≤ t._pos ∧ t._pos < (t._right.length : Int)

/-- The machine definition `TM`: field `end` of the source is `end_` here
(`end` is reserved in Lean). -/
structure TM where
  num_states : Int
  trans : List ((Int × Char) × (Int × Char × Direction))
  input_alphabet : Finset Char
  tape_alphabet : Finset Char
  start : Int
  end_ : Int
deriving DecidableEq

/-- Python dict assignment `d[k] = v`: overwrite in place if the key is
present, else append. -/
def dictInsert (d : List ((Int × Char) × (Int × Char × Direction)))
    (k : Int × Char) (v : Int × Char × Direction) :
    List ((Int × Char) × (Int × Char × Direction)) :=
  match d with
  | [] => [(k, v)]
  | (k₁, v₁) :: rest => if k₁ = k then (k, v) :: rest else (k₁, v₁) :: dictInsert rest k v

/-- Python dict lookup `d[k]` (a missing key raises `KeyError`, modelled
as `none`). -/
def dictLookup (d : List ((Int × Char) × (Int × Char × Direction)))
    (k : Int × Char) : Option (Int × Char × Direction) :=
  match d with
  | [] => none
  | (k₁, v₁) :: rest => if k₁ = k then some v₁ else dictLookup rest k

/-- The per-entry check performed by the `__post_init__` loop over
`self.trans.items()`. -/
def entryOK (numStates endState : Int) (tapeAlph : Finset Char)
    (e : (Int × Char) × (Int × Char × Direction)) : Bool :=
  decide (e.1.1 ≠ endState ∧ e.1.1 ≤ numStates ∧ e.1.2 ∈ tapeAlph ∧
    e.2.1 ≤ numStates ∧ e.2.2.1 ∈ tapeAlph)

/-- The tape alphabet after the two silent repairs of `__post_init__`:
union with the input alphabet when the strict-subset test fails, then
adding the blank when missing. -/
def repairedTape (m : TM) : Finset Char :=
  let t₁ := if ¬ m.input_alphabet ⊂ m.tape_alphabet then m.tape_alphabet ∪ m.input_alphabet
            else m.tape_alphabet
  if 'B' ∉ t₁ then insert 'B' t₁ else t₁

/-- `TM.__post_init__`: the three leading asserts, the two silent repairs
of the tape alphabet, and the per-transition asserts; an `AssertionError`
is modelled as `none`. -/
def TM.post_init (m : TM) : Option TM :=
  if ¬ (m.start ≤ m.num_states) then none
  else if ¬ (m.end_ ≤ m.num_states) then none
  else if 'B' ∈ m.input_alphabet then none
  else
    let tape₂ := repairedTape m
    if m.trans.all (entryOK m.num_states m.end_ tape₂) then
      some { m with tape_alphabet := tape₂ }
    else none

/-- Python `line.split(" ")` on a character list: split at every single
occurrence of the separator, keeping empty fields. -/
def splitOnChar (sep : Char) : List Char → List (List Char)
  | [] => [[]]
  | c :: rest =>
    match splitOnChar sep rest with
    | [] => [[]]
    | cur :: parts => if c = sep then [] :: cur :: parts else (c :: cur) :: parts

/-- Python `str.splitlines()` for newline-separated text: like splitting
on the newline character, except that a trailing newline does not yield a
final empty line and the empty text has no lines. -/
def pySplitlines (s : List Char) : List (List Char) :=
  if s = [] then []
  else
    let parts := splitOnChar '\n' s
    if parts.getLast? = some [] then parts.dropLast else parts

/-- `line.startswith(("#", "/")) or not line`: the transition-section
lines that are skipped. -/
def skipLine (line : List Char) : Bool :=
  line.head? = some '#' || line.head? = some '/' || line = []

/-- The destructuring
`state, symbol, out_state, out_symbol, dir, *_ = line.split(" ")` plus the
conversions applied to the five fields.  A symbol field that is not a
single character is rejected here; in the source it survives until the
`__post_init__` alphabet-membership assert, so `from_spec` fails either
way. -/
def parseRuleFields : List (List Char) → Option ((Int × Char) × (Int × Char × Direction))
  | state :: symbol :: out_state :: out_symbol :: dir :: _ => do
    let s ← pyInt state
    let sy ← match symbol with | [c] => some c | _ => none
    let os ← pyInt out_state
    let osy ← match out_symbol with | [c] => some c | _ => none
    let d ← Direction.parse dir
    return ((s, sy), (os, osy, d))
  | _ => none

/-- The `for line in trans_graph` loop of `from_spec`: skip comment and
blank lines, parse the rest, insert with dict overwrite semantics. -/
def rulesFold : List (List Char) →
    List ((Int × Char) × (Int × Char × Direction)) →
    Option (List ((Int × Char) × (Int × Char × Direction)))
  | [], acc => some acc
  | line :: rest, acc =>
    if skipLine line then rulesFold rest acc
    else
      match parseRuleFields (splitOnChar ' ' line) with
      | none => none
      | some (k, v) => rulesFold rest (dictInsert acc k v)

/-- `TM.from_spec` after `splitlines`: the five header lines, the
transition lines, and construction through `__post_init__`.  Fewer than
five lines is the unpacking `ValueError`. -/
def fromSpecLines : List (List Char) → Option TM
  | num_states :: input_alphabet :: tape_alphabet :: start :: end_ :: trans_graph => do
    let trans ← rulesFold trans_graph []
    let n ← pyInt num_states
    let s ← pyInt start
    let e ← pyInt end_
    TM.post_init
      { num_states := n, trans := trans,
        input_alphabet := input_alphabet.toFinset,
        tape_alphabet := tape_alphabet.toFinset,
        start := s, end_ := e }
  | _ => none

/-- `TM.from_spec`. -/
def TM.from_spec (spec : List Char) : Option TM :=
  fromSpecLines (pySplitlines spec)

/-- The step bound of `TM.__call__`. -/
def stepBound : Nat := 1000000

/-- Outcome of `TM.__call__`: normal return, `KeyError` (undefined
transition), `TimeoutError` (step bound), or an `IndexError` escaping from
the tape (never actually raised; proved for claim C7).  The configuration
lists attached to `undefined` and `timeout` are present exactly when
`log_configs` was requested, as in the source. -/
inductive RunResult where
  | halted (output : List Char) (configs : Option (List Configuration))
  | undefined (state : Int) (symbol : Char) (configs : Option (List Configuration))
  | timeout (configs : Option (List Configuration))
  | crash
deriving DecidableEq, Repr

/-- The `while state != self.end` loop of `TM.__call__`, carrying the
mutable locals `state`, `tape`, `step` and `configs`. -/
def TM.callLoop (M : TM) (log : Bool) (state : Int) (tape : Tape) (step : Nat)
    (configs : List Configuration) : RunResult :=
  if state = M.end_ then
    match tape.read_right with
    | none => .crash
    | some syms =>
      .halted (syms.takeWhile (fun c => decide (c ∈ M.input_alphabet)))
        (if log then some configs else none)
  else
    match tape.read with
    | none => .crash
    | some symbol =>
      match dictLookup M.trans (state, symbol) with
      | none => .undefined state symbol (if log then some configs else none)
      | some (state₂, wsym, dir) =>
        match tape.write wsym with
        | none => .crash
        | some t₁ =>
          if _h : stepBound ≤ step + 1 then
            .timeout (if log then some configs else none)
          else
            M.callLoop log state₂ (t₁.move dir) (step + 1)
              (if log then configs ++ [(t₁.move dir).configuration state₂] else configs)
termination_by stepBound - step
decreasing_by simp only [stepBound] at *; omega

/-- `TM.__call__`: fresh tape over the input, initial configuration
recorded, then the step loop. -/
def TM.call (M : TM) (input : List Char) (log : Bool) : RunResult :=
  let tape := Tape.init input
  let state := M.start
  let configs := [tape.configuration state]
  M.callLoop log state tape 0 configs

/-- State-passing embedding of the `Tape.configuration` method: the body
performs no assignment to any field of `self`, so the tape handed back is
the one received. -/
def Tape.configurationM (t : Tape) (state : Int) : Configuration × Tape :=
  (t.configuration state, t)

/-- A machine whose start state is the halting state: it halts without a
single step on any input. -/
def haltNowTM : TM :=
  { num_states := 1, trans := [], input_alphabet := {'a'},
    tape_alphabet := {'a', 'B'}, start := 1, end_ := 1 }

/-- Evaluation of one immediate-halt run, used to instantiate theorems. -/
theorem haltNow_eval : TM.call haltNowTM [] false = .halted [] none := by
  rw [TM.call, TM.callLoop.eq_def]
  decide

/-- Claim C10: `Tape.configuration` leaves the tape completely unchanged —
the left backing list, the right backing list and the head position are
the same after the call as before it. -/
theorem c10_configuration_frame (t : Tape) (state : Int) :
    (t.configurationM state).2._left = t._left ∧
    (t.configurationM state).2._right = t._right ∧
    (t.configurationM state).2._pos = t._pos :=
  ⟨rfl, rfl, rfl⟩

/-- Claim C5: for a fixed machine definition, input and trace-recording
flag, two invocations of the engine produce identical results — the same
output, the same trace, the same failure carrying the same data. -/
theorem c5_deterministic (M : TM) (input : List Char) (log : Bool)
    (r₁ r₂ : RunResult) (h₁ : TM.call M input log = r₁)
    (h₂ : TM.call M input log = r₂) : r₁ = r₂ := by
  rw [← h₁, ← h₂]

/-- Witness for C5: two evaluations of the same immediate-halt run agree. -/
theorem c5_witness : RunResult.halted [] none = RunResult.halted [] none :=
  c5_deterministic haltNowTM [] false _ _ haltNow_eval haltNow_eval

/-- The seven construction invariants exactly as the specification states
them (section 3 items 1-7); written from the specification's words, to be
compared with what `TM.post_init` actually enforces. -/
def specInvariants (m : TM) : Prop :=
  (1 ≤ m.start ∧ m.start ≤ m.num_states) ∧
  (1 ≤ m.end_ ∧ m.end_ ≤ m.num_states) ∧
  m.input_alphabet ⊂ m.tape_alphabet ∧
  'B' ∉ m.input_alphabet ∧
  'B' ∈ m.tape_alphabet ∧
  (∀ e ∈ m.trans, e.1.1 ≠ m.end_ ∧ 1 ≤ e.1.1 ∧ e.1.1 ≤ m.num_states ∧
    e.1.2 ∈ m.tape_alphabet) ∧
  (∀ e ∈ m.trans, 1 ≤ e.2.1 ∧ e.2.1 ≤ m.num_states ∧ e.2.2.1 ∈ m.tape_alphabet)

/-- The conditions `TM.post_init` actually enforces: upper bounds only on
the state numbers, blank not in the input alphabet, and the transition
checks against the silently repaired tape alphabet. -/
def acceptedInvariants (m : TM) : Prop :=
  m.start ≤ m.num_states ∧ m.end_ ≤ m.num_states ∧ 'B' ∉ m.input_alphabet ∧
  ∀ e ∈ m.trans, e.1.1 ≠ m.end_ ∧ e.1.1 ≤ m.num_states ∧
    e.1.2 ∈ repairedTape m ∧ e.2.1 ≤ m.num_states ∧ e.2.2.1 ∈ repairedTape m

/-- A machine definition violating the strict-subset and
blank-in-tape-alphabet invariants of the specification. -/
def rawC1 : TM :=
  { num_states := 1, trans := [], input_alphabet := {'a'},
    tape_alphabet := {'a'}, start := 1, end_ := 1 }

/-- Counterexample to claim C1: this machine definition violates the
specification's invariants (its input alphabet is not a strict subset of
its tape alphabet, and the blank is missing from the tape alphabet), yet
construction succeeds — the alphabet is silently repaired instead of
rejected. -/
theorem c1_counterexample :
    (TM.post_init rawC1).isSome = true ∧ ¬ specInvariants rawC1 := by
  constructor
  · decide
  · intro h
    exact absurd h.2.2.1 (by decide)

/-- Claim C1 (amended): construction succeeds iff the upper-bound checks,
the blank-not-in-input check, and the per-transition checks against the
silently repaired tape alphabet all pass; on success the resulting machine
is the given one with its tape alphabet replaced by the repaired one.
Lower bounds are never checked, and a non-strict-subset input alphabet or
missing blank is repaired, not rejected. -/
theorem c1_amended (m : TM) :
    ((TM.post_init m).isSome = true ↔ acceptedInvariants m) ∧
    (∀ tm, TM.post_init m = some tm →
      tm = { m with tape_alphabet := repairedTape m }) := by
  have hall : m.trans.all (entryOK m.num_states m.end_ (repairedTape m)) = true ↔
      (∀ e ∈ m.trans, e.1.1 ≠ m.end_ ∧ e.1.1 ≤ m.num_states ∧
        e.1.2 ∈ repairedTape m ∧ e.2.1 ≤ m.num_states ∧ e.2.2.1 ∈ repairedTape m) := by
    rw [List.all_eq_true]
    constructor
    · intro h e he
      exact of_decide_eq_true (h e he)
    · intro h e he
      exact decide_eq_true (h e he)
  have hmain : TM.post_init m =
      (if m.start ≤ m.num_states ∧ m.end_ ≤ m.num_states ∧ 'B' ∉ m.input_alphabet ∧
          m.trans.all (entryOK m.num_states m.end_ (repairedTape m)) = true
       then some { m with tape_alphabet := repairedTape m } else none) := by
    unfold TM.post_init
    by_cases h₁ : m.start ≤ m.num_states <;>
      by_cases h₂ : m.end_ ≤ m.num_states <;>
        by_cases h₃ : 'B' ∈ m.input_alphabet <;>
          by_cases h₄ : m.trans.all (entryOK m.num_states m.end_ (repairedTape m)) = true <;>
            simp [h₁, h₂, h₃, h₄]
  rw [hmain]
  constructor
  · by_cases h : m.start ≤ m.num_states ∧ m.end_ ≤ m.num_states ∧ 'B' ∉ m.input_alphabet ∧
        m.trans.all (entryOK m.num_states m.end_ (repairedTape m)) = true
    · rw [if_pos h]
      unfold acceptedInvariants
      rw [← hall]
      simp [h]
    · rw [if_neg h]
      unfold acceptedInvariants
      rw [← hall]
      simpa using h
  · intro tm htm
    by_cases h : m.start ≤ m.num_states ∧ m.end_ ≤ m.num_states ∧ 'B' ∉ m.input_alphabet ∧
        m.trans.all (entryOK m.num_states m.end_ (repairedTape m)) = true
    · rw [if_pos h] at htm
      exact (Option.some_inj.mp htm).symm
    · rw [if_neg h] at htm
      exact absurd htm (by simp)

/-- Witness for C1: the amended equivalence and the repair equation,
instantiated at the machine of the counterexample. -/
theorem c1_witness :
    acceptedInvariants rawC1 ∧
    { rawC1 with tape_alphabet := repairedTape rawC1 } =
      { rawC1 with tape_alphabet := repairedTape rawC1 } :=
  ⟨(c1_amended rawC1).1.mp (by decide),
   (c1_amended rawC1).2 { rawC1 with tape_alphabet := repairedTape rawC1 } (by decide)⟩

/-- Failure analysis of one scanner step: an error names exactly the
scanned character, and occurs exactly when none of the five accepting
branches applies. -/
theorem scanChar_error (A : Finset Char) (st : ScanSt) (c e : Char)
    (h : scanChar A st c = .error e) :
    e = c ∧ c ∉ A ∧ ¬(st.curr = Buf.num ∧ c.isDigit = true) ∧ c ≠ ' ' ∧ c ≠ '.' ∧
      ¬(st.curr = Buf.num ∧ c = 'q') ∧ c ∉ openBrackets ∧ c ∉ closeBrackets := by
  unfold scanChar at h
  split_ifs at h with h₁ h₂ h₃ h₄
  injection h with h₅
  subst h₅
  exact ⟨rfl, fun hc => h₁ (Or.inr hc), fun hd => h₁ (Or.inl hd),
    fun hc => h₂ (Or.inl hc), fun hc => h₂ (Or.inr (Or.inl hc)),
    fun hq => h₂ (Or.inr (Or.inr hq)), h₃, h₄⟩

/-- Acceptance of one scanner step: when the character is ignorable, in
the alphabet, a digit in the state region, or a bracket, no error is
raised. -/
theorem scanChar_noError (A : Finset Char) (st : ScanSt) (c : Char)
    (hgood : c ∈ A ∨ (st.curr = Buf.num ∧ c.isDigit = true) ∨ c = ' ' ∨ c = '.' ∨
      (st.curr = Buf.num ∧ c = 'q') ∨ c ∈ openBrackets ∨ c ∈ closeBrackets) :
    ∃ st₂, scanChar A st c = .ok st₂ := by
  unfold scanChar
  split_ifs with h₁ h₂ h₃ h₄
  · exact ⟨_, rfl⟩
  · exact ⟨_, rfl⟩
  · exact ⟨_, rfl⟩
  · exact ⟨_, rfl⟩
  · exfalso
    rcases hgood with hc | hd | hc | hc | hq | hc | hc
    · exact h₁ (Or.inr hc)
    · exact h₁ (Or.inl hd)
    · exact h₂ (Or.inl hc)
    · exact h₂ (Or.inr (Or.inl hc))
    · exact h₂ (Or.inr (Or.inr hq))
    · exact h₃ hc
    · exact h₄ hc

/-- When the whole scan of `Configuration.parse` fails, the character it
names is outside the alphabet, not a space or period, and not a bracket
(whatever buffer was active at that point). -/
theorem scan_badChar (data : List Char) :
    ∀ (A : Finset Char) (st : ScanSt) (e : Char),
      data.foldlM (scanChar A) st = Except.error e →
      e ∉ A ∧ e ≠ ' ' ∧ e ≠ '.' ∧ e ∉ openBrackets ∧ e ∉ closeBrackets := by
  induction data with
  | nil =>
    intro A st e h
    rw [List.foldlM_nil] at h
    exact absurd h (by simp [pure, Except.pure])
  | cons c rest ih =>
    intro A st e h
    rw [List.foldlM_cons] at h
    cases hstep : scanChar A st c with
    | error e₂ =>
      rw [hstep] at h
      have h₃ : (Except.error e₂ : Except Char ScanSt) = Except.error e := h
      injection h₃ with h₂
      subst h₂
      obtain ⟨hec, hA, _, hsp, hdot, _, hop, hcl⟩ := scanChar_error A st c e₂ hstep
      subst hec
      exact ⟨hA, hsp, hdot, hop, hcl⟩
    | ok st₂ =>
      rw [hstep] at h
      have h₃ : rest.foldlM (scanChar A) st₂ = Except.error e := h
      exact ih A st₂ e h₃

/-- Claim C6 (amended): the tolerant parser ignores exactly the space and
period characters (not all whitespace), plus the letter `q` while inside
the bracketed state region; every other character that is not in the
alphabet, not a digit while inside the bracketed region, and not a bracket
character raises a failure naming exactly the offending character, and any
character a whole parse names as offending is outside the alphabet and not
an ignorable or bracket character. -/
theorem c6_amended :
    (∀ (A : Finset Char) (st : ScanSt) (c : Char),
        scanChar A st c = .error c ↔
          (c ∉ A ∧ ¬(st.curr = Buf.num ∧ c.isDigit = true) ∧ c ≠ ' ' ∧ c ≠ '.' ∧
            ¬(st.curr = Buf.num ∧ c = 'q') ∧ c ∉ openBrackets ∧ c ∉ closeBrackets)) ∧
    (∀ (A : Finset Char) (st : ScanSt) (c e : Char), scanChar A st c = .error e → e = c) ∧
    (∀ (data : List Char) (A : Finset Char) (e : Char),
        Configuration.parse data A = .badChar e →
          e ∉ A ∧ e ≠ ' ' ∧ e ≠ '.' ∧ e ∉ openBrackets ∧ e ∉ closeBrackets) := by
  refine ⟨?_, ?_, ?_⟩
  · intro A st c
    constructor
    · intro h
      exact (scanChar_error A st c c h).2
    · intro ⟨hA, hd, hsp, hdot, hq, hop, hcl⟩
      unfold scanChar
      rw [if_neg (by tauto), if_neg (by tauto), if_neg hop, if_neg hcl]
  · intro A st c e h
    exact (scanChar_error A st c e h).1
  · intro data A e h
    unfold Configuration.parse at h
    cases hscan : data.foldlM (scanChar A) (⟨[], [], [], Buf.left⟩ : ScanSt) with
    | error c =>
      rw [hscan] at h
      injection h with h₂
      subst h₂
      exact scan_badChar data A _ _ hscan
    | ok st =>
      rw [hscan] at h
      have h₂ : (match pyInt st.num with
          | none => ParseResult.badInt
          | some n => ParseResult.ok (Configuration.make n st.left st.right)) =
          ParseResult.badChar e := h
      cases hint : pyInt st.num with
      | none => rw [hint] at h₂; exact absurd h₂ (by simp)
      | some n => rw [hint] at h₂; exact absurd h₂ (by simp)

/-- Counterexample to claim C6: a tab is whitespace but is not ignored —
it raises a parse failure — while the letter `q` inside the bracketed
region is not in the alphabet, not a digit and not a bracket, yet is
silently ignored instead of raising a failure. -/
theorem c6_counterexample :
    Configuration.parse ['[', '1', ']', '\t'] (∅ : Finset Char) = .badChar '\t' ∧
    Configuration.parse ['[', 'q', '1', ']'] (∅ : Finset Char) =
      .ok (Configuration.make 1 [] []) := by
  constructor
  · decide
  · decide

/-- Witness for C6: the amended classification applied to the concrete
offending character of a concrete failing parse. -/
theorem c6_witness :
    ('!' = '!') ∧
    ('!' ∉ (∅ : Finset Char) ∧ '!' ≠ ' ' ∧ '!' ≠ '.' ∧ '!' ∉ openBrackets ∧
      '!' ∉ closeBrackets) :=
  ⟨c6_amended.2.1 ∅ ⟨[], [], [], Buf.left⟩ '!' '!' rfl,
   c6_amended.2.2 ['!'] ∅ '!' (by decide)⟩

/-- Looking up a key right after inserting it yields the inserted value. -/
theorem dictLookup_dictInsert_self (d : List ((Int × Char) × (Int × Char × Direction)))
    (k : Int × Char) (v : Int × Char × Direction) :
    dictLookup (dictInsert d k v) k = some v := by
  induction d with
  | nil => simp [dictInsert, dictLookup]
  | cons hd tl ih =>
    obtain ⟨k₁, v₁⟩ := hd
    unfold dictInsert
    by_cases h : k₁ = k
    · rw [if_pos h]
      simp [dictLookup]
    · rw [if_neg h]
      unfold dictLookup
      rw [if_neg h]
      exact ih

/-- `__post_init__` never changes the transition table. -/
theorem post_init_trans (m tm : TM) (h : TM.post_init m = some tm) :
    tm.trans = m.trans := by
  simp only [TM.post_init] at h
  split_ifs at h
  injection h with h₂
  rw [← h₂]

/-- A comment or blank line anywhere in the transition section contributes
nothing to the rule fold. -/
theorem rulesFold_skip (line : List Char) (hskip : skipLine line = true) :
    ∀ (pre post : List (List Char)) (acc : List ((Int × Char) × (Int × Char × Direction))),
      rulesFold (pre ++ line :: post) acc = rulesFold (pre ++ post) acc := by
  intro pre
  induction pre with
  | nil =>
    intro post acc
    simp only [List.nil_append]
    simp [rulesFold, hskip]
  | cons l ls ih =>
    intro post acc
    simp only [List.cons_append]
    by_cases hsl : skipLine l
    · simp only [rulesFold, hsl, if_true]
      exact ih post acc
    · simp only [rulesFold, hsl, if_false, Bool.false_eq_true]
      cases hp : parseRuleFields (splitOnChar ' ' l) with
      | none => simp
      | some kv =>
        obtain ⟨k, v⟩ := kv
        simp only
        exact ih post (dictInsert acc k v)

/-- Claim C8: `from_spec` skips transition-section lines that are empty or
start with `#` or `/`; it ignores all fields of a rule line after the
fifth; and when two rule lines share the same (state, symbol) key, the
later line's value silently overwrites the earlier one, both at the dict
level and through a whole `from_spec` construction. -/
theorem c8_from_spec :
    (∀ h₁ h₂ h₃ h₄ h₅ pre post line, skipLine line = true →
        fromSpecLines (h₁ :: h₂ :: h₃ :: h₄ :: h₅ :: (pre ++ line :: post)) =
        fromSpecLines (h₁ :: h₂ :: h₃ :: h₄ :: h₅ :: (pre ++ post))) ∧
    (∀ f₁ f₂ f₃ f₄ f₅ extra,
        parseRuleFields (f₁ :: f₂ :: f₃ :: f₄ :: f₅ :: extra) =
        parseRuleFields [f₁, f₂, f₃, f₄, f₅]) ∧
    (∀ d k v₁ v₂, dictLookup (dictInsert (dictInsert d k v₁) k v₂) k = some v₂) ∧
    (∀ h₁ h₂ h₃ h₄ h₅ l₁ l₂ k v₁ v₂ tm,
        skipLine l₁ = false → skipLine l₂ = false →
        parseRuleFields (splitOnChar ' ' l₁) = some (k, v₁) →
        parseRuleFields (splitOnChar ' ' l₂) = some (k, v₂) →
        fromSpecLines [h₁, h₂, h₃, h₄, h₅, l₁, l₂] = some tm →
        dictLookup tm.trans k = some v₂) := by
  refine ⟨?_, ?_, ?_, ?_⟩
  · intro h₁ h₂ h₃ h₄ h₅ pre post line hskip
    simp only [fromSpecLines]
    rw [rulesFold_skip line hskip pre post []]
  · intro f₁ f₂ f₃ f₄ f₅ extra
    rfl
  · intro d k v₁ v₂
    exact dictLookup_dictInsert_self (dictInsert d k v₁) k v₂
  · intro h₁ h₂ h₃ h₄ h₅ l₁ l₂ k v₁ v₂ tm hs₁ hs₂ hp₁ hp₂ hfs
    have hrules : rulesFold [l₁, l₂] [] = some (dictInsert (dictInsert [] k v₁) k v₂) := by
      simp [rulesFold, hs₁, hs₂, hp₁, hp₂]
    simp only [fromSpecLines, hrules, Option.bind_eq_bind] at hfs
    rw [Option.some_bind] at hfs
    rcases hn : pyInt h₁ with _ | n <;> rw [hn] at hfs
    · exact absurd hfs (by simp)
    rw [Option.some_bind] at hfs
    rcases hsn : pyInt h₄ with _ | sn <;> rw [hsn] at hfs
    · exact absurd hfs (by simp)
    rw [Option.some_bind] at hfs
    rcases hen : pyInt h₅ with _ | en <;> rw [hen] at hfs
    · exact absurd hfs (by simp)
    rw [Option.some_bind] at hfs
    have htr := post_init_trans _ _ hfs
    rw [htr]
    exact dictLookup_dictInsert_self (dictInsert [] k v₁) k v₂

/-- The machine built from a two-rule specification whose rules share a
key; used to instantiate the last-write-wins theorem. -/
def dupTM : TM :=
  { num_states := 2, trans := [((1, 'a'), (2, 'B', Direction.R))],
    input_alphabet := {'a'}, tape_alphabet := {'a', 'B'}, start := 1, end_ := 2 }

/-- Witness for C8: a concrete comment line is skipped, and a concrete
duplicate-key specification keeps the later rule's value. -/
theorem c8_witness :
    (fromSpecLines [['1'], ['a'], ['a', 'B'], ['1'], ['1'], ['#', ' ', 'x']] =
      fromSpecLines [['1'], ['a'], ['a', 'B'], ['1'], ['1']]) ∧
    dictLookup dupTM.trans (1, 'a') = some (2, 'B', Direction.R) :=
  ⟨c8_from_spec.1 ['1'] ['a'] ['a', 'B'] ['1'] ['1'] [] [] ['#', ' ', 'x'] (by decide),
   c8_from_spec.2.2.2 ['2'] ['a'] ['a', 'B'] ['1'] ['2']
     ("1 a 1 a N".toList) ("1 a 2 B R".toList) (1, 'a') (1, 'a', Direction.N)
     (2, 'B', Direction.R) dupTM (by decide) (by decide) (by decide) (by decide) (by decide)⟩

/-- Claim C9: when a defined transition is taken as the 1,000,000th step —
even one whose target is the halting state — the engine raises the
step-bound failure: the bound check follows the counter increment and
precedes the next halting-state test, so halting is only recognized when
fewer than 1,000,000 steps have been taken. -/
theorem c9_step_bound_precedence (M : TM) (log : Bool) (state : Int) (tape : Tape)
    (step : Nat) (configs : List Configuration) (s₂ : Int) (sym wsym : Char)
    (dir : Direction) (t₁ : Tape)
    (hne : state ≠ M.end_) (hread : tape.read = some sym)
    (hlook : dictLookup M.trans (state, sym) = some (s₂, wsym, dir))
    (hwrite : tape.write wsym = some t₁)
    (_hhalt : s₂ = M.end_)
    (hstep : step + 1 = stepBound) :
    M.callLoop log state tape step configs =
      .timeout (if log then some configs else none) := by
  rw [TM.callLoop.eq_def]
  rw [if_neg hne, hread]
  simp only [hlook, hwrite]
  rw [dif_pos (by omega)]

/-- A machine whose only transition enters the halting state. -/
def haltTM : TM :=
  { num_states := 2, trans := [((1, 'B'), (2, 'B', Direction.N))],
    input_alphabet := ∅, tape_alphabet := {'B'}, start := 1, end_ := 2 }

/-- Witness for C9: at step count 999,999 the machine that is about to
enter its halting state times out instead. -/
theorem c9_witness :
    haltTM.callLoop false 1 ⟨[], ['B'], 0⟩ 999999 [] = .timeout none :=
  c9_step_bound_precedence haltTM false 1 ⟨[], ['B'], 0⟩ 999999 [] 2 'B' 'B'
    Direction.N ⟨[], ['B'], 0⟩ (by decide) rfl rfl (by decide) rfl rfl

/-- A deliberately looping machine: its single state transitions to itself
on the blank symbol. -/
def loopTM : TM :=
  { num_states := 2, trans := [((1, 'B'), (1, 'B', Direction.N))],
    input_alphabet := ∅, tape_alphabet := {'B'}, start := 1, end_ := 2 }

/-- The tape of the looping run: one blank cell, head at offset 0; writing
the blank and staying put leaves it unchanged. -/
def loopTape : Tape := ⟨[], ['B'], 0⟩

/-- The configuration recorded at every step of the looping run. -/
def loopCfg : Configuration := Tape.configuration ⟨[], ['B'], 0⟩ 1

/-- One non-final iteration of the looping run: the same state and tape,
the step counter up one, the configuration appended. -/
theorem loopTM_step (step : Nat) (cs : List Configuration)
    (h : ¬ stepBound ≤ step + 1) :
    loopTM.callLoop true 1 loopTape step cs =
      loopTM.callLoop true 1 loopTape (step + 1) (cs ++ [loopCfg]) := by
  conv_lhs => rw [TM.callLoop.eq_def]
  rw [if_neg (by decide : ¬ (1 : Int) = loopTM.end_)]
  rw [show loopTape.read = some 'B' from rfl]
  simp only [show dictLookup loopTM.trans (1, 'B') = some (1, 'B', Direction.N) from rfl]
  rw [show loopTape.write 'B' = some loopTape from rfl]
  simp only [show loopTape.move Direction.N = loopTape from rfl]
  rw [dif_neg h]
  rfl

/-- The final iteration of the looping run: once the counter would reach
the bound, the loop stops with the configurations gathered so far — the
configuration of the final step is not appended. -/
theorem loopTM_stop (step : Nat) (cs : List Configuration)
    (h : stepBound ≤ step + 1) :
    loopTM.callLoop true 1 loopTape step cs = .timeout (some cs) := by
  rw [TM.callLoop.eq_def]
  rw [if_neg (by decide : ¬ (1 : Int) = loopTM.end_)]
  rw [show loopTape.read = some 'B' from rfl]
  simp only [show dictLookup loopTM.trans (1, 'B') = some (1, 'B', Direction.N) from rfl]
  simp only [show loopTape.write 'B' = some loopTape from rfl]
  rw [dif_pos h]
  rfl

/-- The looping run, started with `k` steps of budget left, times out with
exactly `k - 1` further configurations appended. -/
theorem loopTM_run : ∀ (k step : Nat) (cs : List Configuration),
    step + k = stepBound → 1 ≤ k →
    loopTM.callLoop true 1 loopTape step cs =
      .timeout (some (cs ++ List.replicate (k - 1) loopCfg)) := by
  intro k
  induction k with
  | zero => intro step cs h hk; omega
  | succ k ih =>
    intro step cs h hk
    by_cases hk1 : k = 0
    · subst hk1
      rw [loopTM_stop step cs (by omega)]
      simp
    · rw [loopTM_step step cs (by omega)]
      rw [ih (step + 1) (cs ++ [loopCfg]) (by omega) (by omega)]
      rw [List.append_assoc, List.singleton_append, ← List.replicate_succ]
      have h₂ : k - 1 + 1 = k := by omega
      rw [h₂]
      simp

/-- The full looping run from `TM.call`: timeout carrying exactly
`stepBound` configurations (the initial one plus one per completed
non-final step). -/
theorem loopTM_call :
    TM.call loopTM [] true = .timeout (some (List.replicate stepBound loopCfg)) := by
  rw [TM.call]
  rw [show Tape.init [] = loopTape from rfl]
  rw [show loopTM.start = 1 from rfl]
  rw [show loopTape.configuration 1 = loopCfg from rfl]
  rw [loopTM_run stepBound 0 [loopCfg] (by omega) (by norm_num [stepBound])]
  rw [List.singleton_append, ← List.replicate_succ]
  have h₂ : stepBound - 1 + 1 = stepBound := by norm_num [stepBound]
  rw [h₂]

/-- Whenever the trace-recording loop times out, the trace it carries has
exactly `stepBound` entries: the invariant `configs.length = step + 1`
holds from the initial configuration onward, and the timeout fires
before the millionth step's configuration is appended. -/
theorem callLoop_timeout_len (M : TM) : ∀ (fuel step : Nat) (state : Int)
    (tape : Tape) (cs tr : List Configuration),
    stepBound - step = fuel → step < stepBound → cs.length = step + 1 →
    M.callLoop true state tape step cs = .timeout (some tr) →
    tr.length = stepBound := by
  intro fuel
  induction fuel with
  | zero => intro step state tape cs tr h₁ h₂ _ _; omega
  | succ fuel ih =>
    intro step state tape cs tr hfuel hlt hlen h
    rw [TM.callLoop.eq_def] at h
    by_cases hend : state = M.end_
    · rw [if_pos hend] at h
      cases hrr : tape.read_right with
      | none => simp [hrr] at h
      | some syms => simp [hrr] at h
    · rw [if_neg hend] at h
      cases hr : tape.read with
      | none => simp [hr] at h
      | some sym =>
        cases hl : dictLookup M.trans (state, sym) with
        | none => simp [hr, hl] at h
        | some v =>
          obtain ⟨s₂, wsym, dir⟩ := v
          cases hw : tape.write wsym with
          | none => simp [hr, hl, hw] at h
          | some t₁ =>
            simp only [hr, hl, hw] at h
            by_cases hb : stepBound ≤ step + 1
            · rw [dif_pos hb] at h
              simp only [if_true] at h
              injection h with h₂
              injection h₂ with h₃
              rw [← h₃, hlen]
              omega
            · rw [dif_neg hb] at h
              simp only [if_true] at h
              exact ih (step + 1) s₂ (t₁.move dir)
                (cs ++ [(t₁.move dir).configuration s₂]) tr (by omega) (by omega)
                (by simp [hlen]) h

/-- Counterexample to claim C2: the looping machine does time out, but the
partial trace carried by the failure has exactly 1,000,000 entries, not
1,000,001 — the configuration reached by the 1,000,000th step is never
appended, because the bound check precedes the append. -/
theorem c2_counterexample :
    TM.call loopTM [] true = .timeout (some (List.replicate stepBound loopCfg)) ∧
    (List.replicate stepBound loopCfg).length ≠ 1000001 := by
  refine ⟨loopTM_call, ?_⟩
  rw [List.length_replicate]
  norm_num [stepBound]

/-- Claim C2 (amended): a trace-recording run that hits the step bound
fails after exactly 1,000,000 executed steps and carries a partial trace
of exactly 1,000,000 entries — the initial configuration plus one
configuration appended after each of the first 999,999 steps. -/
theorem c2_amended (M : TM) (input : List Char) (tr : List Configuration)
    (h : TM.call M input true = .timeout (some tr)) : tr.length = stepBound := by
  rw [TM.call] at h
  exact callLoop_timeout_len M stepBound 0 M.start (Tape.init input) _ tr rfl
    (by norm_num [stepBound]) (by simp) h

/-- Witness for C2: the amended trace-length theorem applied to the
concrete looping run. -/
theorem c2_witness : (List.replicate stepBound loopCfg).length = stepBound :=
  c2_amended loopTM [] (List.replicate stepBound loopCfg) loopTM_call

/-- Every symbol kept by `takeWhile` satisfies the predicate. -/
theorem mem_takeWhile_pred (p : Char → Bool) : ∀ (l : List Char) (x : Char),
    x ∈ l.takeWhile p → p x = true := by
  intro l
  induction l with
  | nil => intro x h; simp at h
  | cons a t ih =>
    intro x h
    by_cases hp : p a = true
    · rw [List.takeWhile_cons_of_pos hp] at h
      rcases List.mem_cons.mp h with h | h
      · subst h; exact hp
      · exact ih x h
    · rw [List.takeWhile_cons_of_neg hp] at h
      simp at h

/-- The first symbol left behind by `takeWhile` fails the predicate. -/
theorem dropWhile_head_not (p : Char → Bool) : ∀ (l : List Char) (c : Char),
    (l.dropWhile p).head? = some c → p c = false := by
  intro l
  induction l with
  | nil => intro c h; simp at h
  | cons a t ih =>
    intro c h
    by_cases hp : p a = true
    · rw [List.dropWhile_cons_of_pos hp] at h
      exact ih c h
    · rw [List.dropWhile_cons_of_neg hp] at h
      simp only [List.head?_cons, Option.some_inj] at h
      subst h
      exact Bool.not_eq_true _ ▸ (by simpa using hp)

/-- `takeWhile` produces the longest prefix whose members all satisfy the
predicate: no other such prefix is longer. -/
theorem takeWhile_longest (p : Char → Bool) : ∀ (q l rest : List Char),
    l = q ++ rest → (∀ a ∈ q, p a = true) → q.length ≤ (l.takeWhile p).length := by
  intro q
  induction q with
  | nil => intro l rest _ _; simp
  | cons a q ih =>
    intro l rest hl hq
    subst hl
    rw [List.cons_append, List.takeWhile_cons_of_pos (hq a (by simp))]
    simp only [List.length_cons, Nat.add_le_add_iff_right]
    exact ih (q ++ rest) rest rfl (fun b hb => hq b (by simp [hb]))

/-- Claim C3: when the loop is entered in the halting state, the returned
output is exactly the longest prefix of `Tape.read_right` — the symbol
sequence read rightward from the final head position — whose symbols all
lie in the input alphabet: every output symbol is in the input alphabet,
the output is a prefix of the sequence, the scan stops at the first symbol
not in the input alphabet, and no longer all-input-alphabet prefix
exists. -/
theorem c3_halting_output (M : TM) (log : Bool) (state : Int) (tape : Tape)
    (step : Nat) (cs : List Configuration) (syms : List Char)
    (hend : state = M.end_) (hrr : tape.read_right = some syms) :
    ∃ out cfgs, M.callLoop log state tape step cs = .halted out cfgs ∧
      (∀ c ∈ out, c ∈ M.input_alphabet) ∧
      (∃ rest, syms = out ++ rest ∧
        ∀ c, rest.head? = some c → c ∉ M.input_alphabet) ∧
      (∀ q rest₂, syms = q ++ rest₂ → (∀ c ∈ q, c ∈ M.input_alphabet) →
        q.length ≤ out.length) := by
  have hloop : M.callLoop log state tape step cs =
      .halted (syms.takeWhile (fun c => decide (c ∈ M.input_alphabet)))
        (if log then some cs else none) := by
    rw [TM.callLoop.eq_def, if_pos hend]
    simp only [hrr]
  refine ⟨_, _, hloop, ?_, ?_, ?_⟩
  · intro c hc
    exact of_decide_eq_true (mem_takeWhile_pred _ syms c hc)
  · refine ⟨syms.dropWhile (fun c => decide (c ∈ M.input_alphabet)), ?_, ?_⟩
    · exact (List.takeWhile_append_dropWhile _ syms).symm
    · intro c hc
      have := dropWhile_head_not _ syms c hc
      simpa using this
  · intro q rest₂ hq hmem
    exact takeWhile_longest _ q syms rest₂ hq
      (fun a ha => decide_eq_true (hmem a ha))

/-- Witness for C3: the halting-output characterization at a concrete
immediately-halting run whose tape holds a single blank. -/
theorem c3_witness :
    ∃ out cfgs, haltNowTM.callLoop false 1 ⟨[], ['B'], 0⟩ 0 [] = .halted out cfgs ∧
      (∀ c ∈ out, c ∈ haltNowTM.input_alphabet) ∧
      (∃ rest, ['B'] = out ++ rest ∧
        ∀ c, rest.head? = some c → c ∉ haltNowTM.input_alphabet) ∧
      (∀ q rest₂, ['B'] = q ++ rest₂ → (∀ c ∈ q, c ∈ haltNowTM.input_alphabet) →
        q.length ≤ out.length) :=
  c3_halting_output haltNowTM false 1 ⟨[], ['B'], 0⟩ 0 [] ['B'] rfl (by decide)

/-- The three tape operations the execution engine may perform, one per
step: `read()`, `write(symbol)`, `move(direction)`. -/
inductive TapeOp where
  | read
  | write (c : Char)
  | move (d : Direction)
deriving DecidableEq, Repr

/-- Apply one operation to a tape; a raised `IndexError` is `none`. -/
def applyOp (t : Tape) : TapeOp → Option Tape
  | .read => (t.read).map (fun _ => t)
  | .write c => t.write c
  | .move d => some (t.move d)

/-- Apply a finite sequence of operations left to right. -/
def applyOps (t : Tape) : List TapeOp → Option Tape
  | [] => some t
  | op :: rest =>
    match applyOp t op with
    | none => none
    | some t₂ => applyOps t₂ rest

/-- The head offsets written to by an operation sequence started with the
head at `p` (the head moves deterministically with the `move` ops). -/
def writeOffsets : List TapeOp → Int → List Int
  | [], _ => []
  | .read :: rest, p => writeOffsets rest p
  | .write _ :: rest, p => p :: writeOffsets rest p
  | .move d :: rest, p => writeOffsets rest (p + d.toInt)

/-- Appending the blank to the backing list changes no defaulted lookup:
the new cell holds exactly the value unmaterialized cells already denote. -/
theorem getD_append_blank : ∀ (l : List Char) (k : Nat),
    (l ++ ['B']).getD k 'B' = l.getD k 'B' := by
  intro l
  induction l with
  | nil => intro k; cases k <;> simp [List.getD]
  | cons a t ih =>
    intro k
    cases k with
    | zero => simp [List.getD]
    | succ k => simpa [List.getD] using ih k

/-- Setting index `k` changes the defaulted lookup only at `k`. -/
theorem getD_set_eq (a d : Char) : ∀ (l : List Char) (k : Nat), k < l.length →
    (l.set k a).getD k d = a := by
  intro l
  induction l with
  | nil => intro k h; simp at h
  | cons b t ih =>
    intro k h
    cases k with
    | zero => simp [List.getD]
    | succ k => simpa [List.getD] using ih k (by simpa using h)

/-- Setting index `k` leaves the defaulted lookup at any other index
unchanged. -/
theorem getD_set_ne (a d : Char) : ∀ (l : List Char) (k m : Nat), k ≠ m →
    (l.set k a).getD m d = l.getD m d := by
  intro l
  induction l with
  | nil => intro k m _; simp
  | cons b t ih =>
    intro k m hkm
    cases k with
    | zero =>
      cases m with
      | zero => exact absurd rfl hkm
      | succ m => simp [List.getD]
    | succ k =>
      cases m with
      | zero => simp [List.getD]
      | succ m => simpa [List.getD] using ih k m (by omega)

/-- The initial tape is well-formed. -/
theorem Tape.WF_init (input : List Char) : Tape.WF (Tape.init input) := by
  unfold Tape.WF Tape.init
  by_cases h : input = []
  · simp [h]
  · have : input.length ≠ 0 := by simpa using fun h₂ => h (List.length_eq_zero.mp h₂)
    simp [h]
    omega

/-- In-range lookups never fail and agree with the defaulted view. -/
theorem get?_eq_getD : ∀ (l : List Char) (k : Nat), k < l.length →
    l.get? k = some (l.getD k 'B') := by
  intro l
  induction l with
  | nil => intro k h; simp at h
  | cons a t ih =>
    intro k h
    cases k with
    | zero => simp [List.getD]
    | succ k => simpa [List.getD] using ih k (by simpa using h)

/-- Out-of-range defaulted lookups give the blank. -/
theorem getD_blank_of_le : ∀ (l : List Char) (k : Nat), l.length ≤ k →
    l.getD k 'B' = 'B' := by
  intro l
  induction l with
  | nil => intro k _; simp
  | cons a t ih =>
    intro k h
    cases k with
    | zero => simp at h
    | succ k => simpa [List.getD] using ih k (by simpa using h)

/-- On a well-formed tape, `read` succeeds and returns the cell under the
head. -/
theorem Tape.read_wf (t : Tape) (h : Tape.WF t) :
    t.read = some (t.cellAt t._pos) := by
  obtain ⟨h₁, h₂⟩ := h
  unfold Tape.read Tape.cellAt
  by_cases hp : t._pos < 0
  · rw [if_pos hp, if_pos hp]
    exact get?_eq_getD _ _ (by omega)
  · rw [if_neg hp, if_neg hp]
    exact get?_eq_getD _ _ (by omega)

/-- On a well-formed tape, `write` succeeds, preserves well-formedness,
the head position and the extent, changes the cell under the head to the
written symbol and no other cell. -/
theorem Tape.write_wf (t : Tape) (c : Char) (h : Tape.WF t) :
    ∃ t₂, t.write c = some t₂ ∧ Tape.WF t₂ ∧ t₂._pos = t._pos ∧
      t₂._left.length = t._left.length ∧ t₂._right.length = t._right.length ∧
      (∀ i : Int, i ≠ t._pos → t₂.cellAt i = t.cellAt i) ∧
      t₂.cellAt t._pos = c := by
  obtain ⟨h₁, h₂⟩ := h
  unfold Tape.write
  by_cases hp : t._pos < 0
  · rw [if_pos hp]
    have hk : (-t._pos - 1).toNat < t._left.length := by omega
    rw [if_pos hk]
    refine ⟨_, rfl, ?_, rfl, by simp, rfl, ?_, ?_⟩
    · unfold Tape.WF
      simp only [List.length_set]
      exact ⟨h₁, h₂⟩
    · intro i hi
      unfold Tape.cellAt
      by_cases hineg : i < 0
      · rw [if_pos hineg, if_pos hineg]
        exact getD_set_ne c 'B' _ _ _ (by omega)
      · rw [if_neg hineg, if_neg hineg]
    · unfold Tape.cellAt
      rw [if_pos hp]
      exact getD_set_eq c 'B' _ _ hk
  · rw [if_neg hp]
    have hk : t._pos.toNat < t._right.length := by omega
    rw [if_pos hk]
    refine ⟨_, rfl, ?_, rfl, rfl, by simp, ?_, ?_⟩
    · unfold Tape.WF
      simp only [List.length_set]
      exact ⟨h₁, h₂⟩
    · intro i hi
      unfold Tape.cellAt
      by_cases hineg : i < 0
      · rw [if_pos hineg, if_pos hineg]
      · rw [if_neg hineg, if_neg hineg]
        exact getD_set_ne c 'B' _ _ _ (by omega)
    · unfold Tape.cellAt
      rw [if_neg hp]
      exact getD_set_eq c 'B' _ _ hk

/-- On a well-formed tape, `move` preserves well-formedness, shifts the
head by the direction's value, grows each backing list to exactly cover
the new head position (one blank cell when the head left the materialized
extent, nothing otherwise), and leaves every cell's content unchanged. -/
theorem Tape.move_wf (t : Tape) (d : Direction) (h : Tape.WF t) :
    Tape.WF (t.move d) ∧ (t.move d)._pos = t._pos + d.toInt ∧
    ((t.move d)._left.length : Int) =
      max (t._left.length : Int) (-(t._pos + d.toInt)) ∧
    ((t.move d)._right.length : Int) =
      max (t._right.length : Int) (t._pos + d.toInt + 1) ∧
    (∀ i : Int, (t.move d).cellAt i = t.cellAt i) := by
  obtain ⟨h₁, h₂⟩ := h
  have hd : d.toInt = -1 ∨ d.toInt = 0 ∨ d.toInt = 1 := by
    cases d <;> simp [Direction.toInt]
  unfold Tape.move
  by_cases hc₁ : t._pos + d.toInt < -((t._left.length : Int))
  · rw [if_pos hc₁]
    refine ⟨?_, rfl, ?_, ?_, ?_⟩
    · unfold Tape.WF
      simp only [List.length_append, List.length_cons, List.length_nil]
      constructor <;> [push_cast; skip] <;> omega
    · simp only [List.length_append, List.length_cons, List.length_nil]
      push_cast
      omega
    · simp only
      omega
    · intro i
      unfold Tape.cellAt
      by_cases hineg : i < 0
      · rw [if_pos hineg, if_pos hineg]
        exact getD_append_blank _ _
      · rw [if_neg hineg, if_neg hineg]
  · rw [if_neg hc₁]
    by_cases hc₂ : t._pos + d.toInt ≥ ((t._right.length : Int))
    · rw [if_pos hc₂]
      refine ⟨?_, rfl, ?_, ?_, ?_⟩
      · unfold Tape.WF
        simp only [List.length_append, List.length_cons, List.length_nil]
        constructor <;> [skip; push_cast] <;> omega
      · simp only
        omega
      · simp only [List.length_append, List.length_cons, List.length_nil]
        push_cast
        omega
      · intro i
        unfold Tape.cellAt
        by_cases hineg : i < 0
        · rw [if_pos hineg, if_pos hineg]
        · rw [if_neg hineg, if_neg hineg]
          exact getD_append_blank _ _
    · rw [if_neg hc₂]
      refine ⟨?_, rfl, ?_, ?_, ?_⟩
      · unfold Tape.WF
        simp only
        omega
      · simp only
        omega
      · simp only
        omega
      · intro i
        unfold Tape.cellAt
        by_cases hineg : i < 0
        · rw [if_pos hineg]
        · rw [if_neg hineg]

/-- Every cell of the initial tape outside the input span is blank. -/
theorem cellAt_init (input : List Char) (i : Int)
    (h : ¬(0 ≤ i ∧ i < (input.length : Int))) : (Tape.init input).cellAt i = 'B' := by
  unfold Tape.init Tape.cellAt
  by_cases hneg : i < 0
  · rw [if_pos hneg]
    simp
  · rw [if_neg hneg]
    by_cases hemp : input = []
    · rw [if_pos hemp]
      cases hk : i.toNat with
      | zero => simp [List.getD]
      | succ k => simp [List.getD]
    · rw [if_neg hemp]
      exact getD_blank_of_le input i.toNat (by omega)

/-- Applying any operation sequence to a well-formed tape never raises,
keeps the tape well-formed, and leaves every cell at an offset the
sequence never wrote to unchanged. -/
theorem applyOps_wf : ∀ (ops : List TapeOp) (t : Tape), Tape.WF t →
    ∃ t₂, applyOps t ops = some t₂ ∧ Tape.WF t₂ ∧
      ∀ i : Int, i ∉ writeOffsets ops t._pos → t₂.cellAt i = t.cellAt i := by
  intro ops
  induction ops with
  | nil => intro t h; exact ⟨t, rfl, h, fun i _ => rfl⟩
  | cons op rest ih =>
    intro t h
    cases op with
    | read =>
      obtain ⟨t₂, h₂, hwf₂, hcell⟩ := ih t h
      refine ⟨t₂, ?_, hwf₂, ?_⟩
      · have hred : applyOps t (TapeOp.read :: rest) =
            (match Option.map (fun _ => t) t.read with
              | none => none
              | some u => applyOps u rest) := rfl
        rw [hred, Tape.read_wf t h]
        exact h₂
      · intro i hi
        exact hcell i (by simpa [writeOffsets] using hi)
    | write c =>
      obtain ⟨t₂, hw, hwf₂, hpos, _, _, hne, _⟩ := Tape.write_wf t c h
      obtain ⟨t₃, h₃, hwf₃, hcell⟩ := ih t₂ hwf₂
      refine ⟨t₃, ?_, hwf₃, ?_⟩
      · have hred : applyOps t (TapeOp.write c :: rest) =
            (match t.write c with
              | none => none
              | some u => applyOps u rest) := rfl
        rw [hred, hw]
        exact h₃
      · intro i hi
        simp only [writeOffsets, List.mem_cons] at hi
        push_neg at hi
        rw [hcell i (by rw [hpos]; exact hi.2)]
        exact hne i hi.1
    | move d =>
      obtain ⟨hwf₂, hpos, _, _, hcells⟩ := Tape.move_wf t d h
      obtain ⟨t₃, h₃, hwf₃, hcell⟩ := ih (t.move d) hwf₂
      refine ⟨t₃, ?_, hwf₃, ?_⟩
      · exact h₃
      · intro i hi
        rw [hcell i (by rw [hpos]; simpa [writeOffsets] using hi)]
        exact hcells i

/-- Claim C7: starting from any input tape, any finite sequence of read,
write and move operations never raises — the head always stays within the
materialized extent — the tape stays well-formed, every never-written cell
outside the input span reads as the blank `B`, and `move` grows each
backing list to exactly cover the new head position (one blank cell
exactly when the new position lies outside the materialized extent)
without changing any cell's content. -/
theorem c7_tape_safety :
    (∀ (input : List Char) (ops : List TapeOp),
      ∃ t₂, applyOps (Tape.init input) ops = some t₂ ∧ Tape.WF t₂ ∧
        ∀ i : Int, i ∉ writeOffsets ops 0 → ¬(0 ≤ i ∧ i < (input.length : Int)) →
          t₂.cellAt i = 'B') ∧
    (∀ (t : Tape) (d : Direction), Tape.WF t →
      Tape.WF (t.move d) ∧ (t.move d)._pos = t._pos + d.toInt ∧
      ((t.move d)._left.length : Int) =
        max (t._left.length : Int) (-(t._pos + d.toInt)) ∧
      ((t.move d)._right.length : Int) =
        max (t._right.length : Int) (t._pos + d.toInt + 1) ∧
      (∀ i : Int, (t.move d).cellAt i = t.cellAt i)) := by
  constructor
  · intro input ops
    obtain ⟨t₂, h₂, hwf₂, hcell⟩ := applyOps_wf ops (Tape.init input) (Tape.WF_init input)
    refine ⟨t₂, h₂, hwf₂, ?_⟩
    intro i hi hspan
    rw [hcell i (by simpa [Tape.init] using hi)]
    exact cellAt_init input i hspan
  · exact Tape.move_wf

/-- Witness for C7: a concrete three-operation run on input "ab" succeeds,
reads blank at the untouched offset 5, and a concrete in-extent move
changes no extent or cell. -/
theorem c7_witness :
    (∃ t₂, applyOps (Tape.init ['a', 'b'])
        [TapeOp.move Direction.R, TapeOp.write 'x', TapeOp.move Direction.R] = some t₂ ∧
      Tape.WF t₂ ∧ t₂.cellAt 5 = 'B') ∧
    Tape.WF (Tape.move ⟨[], ['a', 'b'], 0⟩ Direction.R) := by
  constructor
  · obtain ⟨t₂, h₂, hwf₂, hcell⟩ := c7_tape_safety.1 ['a', 'b']
      [TapeOp.move Direction.R, TapeOp.write 'x', TapeOp.move Direction.R]
    exact ⟨t₂, h₂, hwf₂, hcell 5 (by decide) (by decide)⟩
  · exact (c7_tape_safety.2 ⟨[], ['a', 'b'], 0⟩ Direction.R (by constructor <;> decide)).1

/-- The rendered digit of `k < 10` is a digit character whose value is
`k`. -/
theorem digitChar_spec (k : Nat) (h : k < 10) :
    (digitChar k).isDigit = true ∧ (digitChar k).toNat - 48 = k := by
  interval_cases k <;> exact ⟨by decide, by decide⟩

/-- The digit rendering does not depend on the fuel, as long as the fuel
exceeds the number. -/
theorem natDigitsCore_fuel : ∀ (n f₁ f₂ : Nat) (acc : List Char), n < f₁ → n < f₂ →
    natDigitsCore f₁ n acc = natDigitsCore f₂ n acc := by
  intro n
  induction n using Nat.strong_induction_on with
  | _ n ih =>
    intro f₁ f₂ acc h₁ h₂
    match f₁, f₂ with
    | a + 1, b + 1 =>
      unfold natDigitsCore
      by_cases hn : n < 10
      · rw [if_pos hn, if_pos hn]
      · rw [if_neg hn, if_neg hn]
        exact ih (n / 10) (by omega) a b _ (by omega) (by omega)

/-- The accumulator of the digit rendering is a plain suffix. -/
theorem natDigitsCore_append : ∀ (n fuel : Nat) (acc : List Char), n < fuel →
    natDigitsCore fuel n acc = natDigitsCore fuel n [] ++ acc := by
  intro n
  induction n using Nat.strong_induction_on with
  | _ n ih =>
    intro fuel acc h
    match fuel with
    | f + 1 =>
      unfold natDigitsCore
      by_cases hn : n < 10
      · rw [if_pos hn, if_pos hn]
        rfl
      · rw [if_neg hn, if_neg hn]
        rw [ih (n / 10) (by omega) f _ (by omega), ih (n / 10) (by omega) f
          [digitChar (n % 10)] (by omega)]
        rw [List.append_assoc]
        rfl

/-- The decimal rendering of a natural number is a nonempty all-digit
list, and folding it back as `int` does yields the number again. -/
theorem natDigits_spec : ∀ n : Nat, (natDigits n).all Char.isDigit = true ∧
    natDigits n ≠ [] ∧
    (natDigits n).foldl (fun a c => 10 * a + (c.toNat - 48)) 0 = n := by
  intro n
  induction n using Nat.strong_induction_on with
  | _ n ih =>
    by_cases hn : n < 10
    · have h₁ : natDigits n = [digitChar n] := by
        unfold natDigits natDigitsCore
        rw [if_pos hn]
      obtain ⟨hd, hv⟩ := digitChar_spec n hn
      rw [h₁]
      refine ⟨by simp [hd], by simp, ?_⟩
      simp [hv]
    · have h₁ : natDigits n = natDigits (n / 10) ++ [digitChar (n % 10)] := by
        show natDigitsCore (n + 1) n [] = _
        unfold natDigitsCore
        rw [if_neg hn]
        rw [natDigitsCore_append (n / 10) n [digitChar (n % 10)] (by omega)]
        rw [natDigitsCore_fuel (n / 10) n (n / 10 + 1) [] (by omega) (by omega)]
        rfl
      obtain ⟨hall, hne, hval⟩ := ih (n / 10) (by omega)
      obtain ⟨hd, hv⟩ := digitChar_spec (n % 10) (by omega)
      rw [h₁]
      refine ⟨?_, by simp, ?_⟩
      · rw [List.all_append]
        simp [hall, hd]
      · rw [List.foldl_append, hval]
        simp only [List.foldl_cons, List.foldl_nil]
        rw [hv]
        omega

/-- Python `int(...)` inverts `str(...)` on the decimal rendering of a
natural number. -/
theorem pyInt_natDigits (n : Nat) : pyInt (natDigits n) = some (n : Int) := by
  obtain ⟨hall, hne, hval⟩ := natDigits_spec n
  have hdv : digitsVal (natDigits n) = some n := by
    unfold digitsVal
    rw [if_pos ⟨hne, hall⟩, hval]
  cases hnd : natDigits n with
  | nil => exact absurd hnd hne
  | cons c cs =>
    have hcdig : c.isDigit = true := by
      rw [hnd, List.all_cons, Bool.and_eq_true] at hall
      exact hall.1
    have hcm : c ≠ '-' := fun h => by rw [h] at hcdig; exact absurd hcdig (by decide)
    have hcp : c ≠ '+' := fun h => by rw [h] at hcdig; exact absurd hcdig (by decide)
    unfold pyInt
    split
    · rename_i rest heq
      injection heq with heq₁
      exact absurd heq₁ hcm
    · rename_i rest heq
      injection heq with heq₁
      exact absurd heq₁ hcp
    · rw [hnd] at hdv
      rw [hdv]
      rfl

/-- One unfolding of the scan fold. -/
theorem foldlM_scan_cons (A : Finset Char) (st : ScanSt) (c : Char) (cs : List Char) :
    List.foldlM (scanChar A) st (c :: cs) =
      (match scanChar A st c with
       | .error e => .error e
       | .ok st₂ => List.foldlM (scanChar A) st₂ cs) := by
  rw [List.foldlM_cons]
  cases scanChar A st c <;> rfl

/-- Concatenating scans: a successful scan of the first part continues
into the second. -/
theorem scan_seq (A : Finset Char) (l₁ l₂ : List Char) (st₁ st₂ : ScanSt)
    (res : Except Char ScanSt)
    (h₁ : List.foldlM (scanChar A) st₁ l₁ = .ok st₂)
    (h₂ : List.foldlM (scanChar A) st₂ l₂ = res) :
    List.foldlM (scanChar A) st₁ (l₁ ++ l₂) = res := by
  rw [List.foldlM_append, h₁]
  exact h₂

/-- A period outside the alphabet is skipped. -/
theorem scanChar_dot (A : Finset Char) (h : '.' ∉ A) (st : ScanSt) :
    scanChar A st '.' = .ok st := by
  have h₁ : ¬((st.curr = Buf.num ∧ ('.' : Char).isDigit = true) ∨ '.' ∈ A) := by
    rintro (⟨_, hd⟩ | hc)
    · exact absurd hd (by decide)
    · exact h hc
  unfold scanChar
  rw [if_neg h₁, if_pos (Or.inr (Or.inl rfl))]

/-- A character of the alphabet is appended to the active buffer. -/
theorem scanChar_mem (A : Finset Char) (c : Char) (hc : c ∈ A) (st : ScanSt) :
    scanChar A st c = .ok (st.push c) := by
  unfold scanChar
  rw [if_pos (Or.inr hc)]

/-- A digit while the state buffer is active is appended to it. -/
theorem scanChar_digit_num (A : Finset Char) (c : Char) (hc : c.isDigit = true)
    (st : ScanSt) (hst : st.curr = Buf.num) :
    scanChar A st c = .ok (st.push c) := by
  unfold scanChar
  rw [if_pos (Or.inl ⟨hst, hc⟩)]

/-- An opening bracket outside the alphabet activates the state buffer. -/
theorem scanChar_open (A : Finset Char) (h : '[' ∉ A) (st : ScanSt) :
    scanChar A st '[' = .ok { st with curr := Buf.num } := by
  have h₁ : ¬((st.curr = Buf.num ∧ ('[' : Char).isDigit = true) ∨ '[' ∈ A) := by
    rintro (⟨_, hd⟩ | hc)
    · exact absurd hd (by decide)
    · exact h hc
  have h₂ : ¬(('[' : Char) = ' ' ∨ ('[' : Char) = '.' ∨
      (st.curr = Buf.num ∧ ('[' : Char) = 'q')) := by
    rintro (hc | hc | ⟨_, hc⟩) <;> exact absurd hc (by decide)
  unfold scanChar
  rw [if_neg h₁, if_neg h₂, if_pos (by decide)]

/-- A closing bracket outside the alphabet activates the right buffer. -/
theorem scanChar_close (A : Finset Char) (h : ']' ∉ A) (st : ScanSt) :
    scanChar A st ']' = .ok { st with curr := Buf.right } := by
  have h₁ : ¬((st.curr = Buf.num ∧ (']' : Char).isDigit = true) ∨ ']' ∈ A) := by
    rintro (⟨_, hd⟩ | hc)
    · exact absurd hd (by decide)
    · exact h hc
  have h₂ : ¬((']' : Char) = ' ' ∨ (']' : Char) = '.' ∨
      (st.curr = Buf.num ∧ (']' : Char) = 'q')) := by
    rintro (hc | hc | ⟨_, hc⟩) <;> exact absurd hc (by decide)
  unfold scanChar
  rw [if_neg h₁, if_neg h₂, if_neg (by decide), if_pos (by decide)]

/-- The ellipsis dots of the serialized form are all skipped. -/
theorem scan_dots (A : Finset Char) (h : '.' ∉ A) (st : ScanSt) :
    List.foldlM (scanChar A) st ['.', '.', '.'] = .ok st := by
  simp only [foldlM_scan_cons, scanChar_dot A h, List.foldlM_nil]
  rfl

/-- Scanning alphabet characters with the left buffer active appends them
to it. -/
theorem scan_left_chars (A : Finset Char) : ∀ (l : List Char) (st : ScanSt),
    (∀ c ∈ l, c ∈ A) → st.curr = Buf.left →
    List.foldlM (scanChar A) st l = .ok { st with left := st.left ++ l } := by
  intro l
  induction l with
  | nil =>
    intro st _ _
    rw [List.foldlM_nil]
    show Except.ok st = _
    rw [List.append_nil]
  | cons c l ih =>
    intro st hmem hcurr
    rw [foldlM_scan_cons, scanChar_mem A c (hmem c (by simp))]
    have hpush : st.push c = { st with left := st.left ++ [c] } := by
      unfold ScanSt.push
      rw [hcurr]
    rw [hpush]
    show List.foldlM (scanChar A) { st with left := st.left ++ [c] } l = _
    rw [ih { st with left := st.left ++ [c] } (fun d hd => hmem d (by simp [hd])) hcurr]
    rw [List.append_assoc]
    rfl

/-- Scanning alphabet characters with the right buffer active appends them
to it. -/
theorem scan_right_chars (A : Finset Char) : ∀ (l : List Char) (st : ScanSt),
    (∀ c ∈ l, c ∈ A) → st.curr = Buf.right →
    List.foldlM (scanChar A) st l = .ok { st with right := st.right ++ l } := by
  intro l
  induction l with
  | nil =>
    intro st _ _
    rw [List.foldlM_nil]
    show Except.ok st = _
    rw [List.append_nil]
  | cons c l ih =>
    intro st hmem hcurr
    rw [foldlM_scan_cons, scanChar_mem A c (hmem c (by simp))]
    have hpush : st.push c = { st with right := st.right ++ [c] } := by
      unfold ScanSt.push
      rw [hcurr]
    rw [hpush]
    show List.foldlM (scanChar A) { st with right := st.right ++ [c] } l = _
    rw [ih { st with right := st.right ++ [c] } (fun d hd => hmem d (by simp [hd])) hcurr]
    rw [List.append_assoc]
    rfl

/-- Scanning digits with the state buffer active appends them to it. -/
theorem scan_digits (A : Finset Char) : ∀ (ds : List Char) (st : ScanSt),
    ds.all Char.isDigit = true → st.curr = Buf.num →
    List.foldlM (scanChar A) st ds = .ok { st with num := st.num ++ ds } := by
  intro ds
  induction ds with
  | nil =>
    intro st _ _
    rw [List.foldlM_nil]
    show Except.ok st = _
    rw [List.append_nil]
  | cons c ds ih =>
    intro st hall hcurr
    rw [List.all_cons, Bool.and_eq_true] at hall
    rw [foldlM_scan_cons, scanChar_digit_num A c hall.1 st hcurr]
    have hpush : st.push c = { st with num := st.num ++ [c] } := by
      unfold ScanSt.push
      rw [hcurr]
    rw [hpush]
    show List.foldlM (scanChar A) { st with num := st.num ++ [c] } ds = _
    rw [ih { st with num := st.num ++ [c] } hall.2 hcurr]
    rw [List.append_assoc]
    rfl

/-- Dropping a prefix keeps membership. -/
theorem mem_dropWhileB : ∀ (l : List Char) (c : Char),
    c ∈ l.dropWhile (fun x => x = 'B') → c ∈ l := by
  intro l
  induction l with
  | nil => intro c h; simp at h
  | cons a t ih =>
    intro c h
    rw [List.dropWhile_cons] at h
    split at h
    · exact List.mem_cons_of_mem a (ih c h)
    · exact h

/-- Members of the left-stripped list were members of the original. -/
theorem mem_lstripB (l : List Char) (c : Char) (h : c ∈ lstripB l) : c ∈ l :=
  mem_dropWhileB l c h

/-- Members of the right-stripped list were members of the original. -/
theorem mem_rstripB (r : List Char) (c : Char) (h : c ∈ rstripB r) : c ∈ r := by
  unfold rstripB at h
  rw [List.mem_reverse] at h
  have := mem_dropWhileB r.reverse c h
  rwa [List.mem_reverse] at this

/-- Stripping the blank prefix twice is the same as stripping it once. -/
theorem dropWhileB_idem (l : List Char) :
    (l.dropWhile (fun x => x = 'B')).dropWhile (fun x => x = 'B') =
      l.dropWhile (fun x => x = 'B') := by
  cases h : l.dropWhile (fun x => x = 'B') with
  | nil => rfl
  | cons a t =>
    have ha := dropWhile_head_not (fun x => decide (x = 'B')) l a (by rw [h]; rfl)
    have ha₂ : ¬((fun x => decide (x = 'B')) a = true) := by
      rw [ha]
      simp
    rw [List.dropWhile_cons, if_neg ha₂]

/-- `lstrip("B")` is idempotent. -/
theorem lstripB_idem (l : List Char) : lstripB (lstripB l) = lstripB l :=
  dropWhileB_idem l

/-- `rstrip("B")` is idempotent. -/
theorem rstripB_idem (r : List Char) : rstripB (rstripB r) = rstripB r := by
  unfold rstripB
  rw [List.reverse_reverse, dropWhileB_idem]

/-- Claim C4 (amended): for a configuration with a nonnegative state whose
left and right parts draw only on the alphabet `A`, and an alphabet `A`
containing none of the three characters the serialized form itself uses
(`.`, `[`, `]`), parsing the canonical string form with alphabet `A`
returns exactly the original configuration. -/
theorem c4_amended (n : Int) (l r : List Char) (A : Finset Char)
    (hn : 0 ≤ n) (hl : ∀ c ∈ l, c ∈ A) (hr : ∀ c ∈ r, c ∈ A)
    (hdot : '.' ∉ A) (hop : '[' ∉ A) (hcl : ']' ∉ A) :
    Configuration.parse (Configuration.str (Configuration.make n l r)) A =
      .ok (Configuration.make n l r) := by
  have hml : ∀ c ∈ lstripB l, c ∈ A := fun c hc => hl c (mem_lstripB l c hc)
  have hmr : ∀ c ∈ rstripB r, c ∈ A := fun c hc => hr c (mem_rstripB r c hc)
  have hstr : Configuration.str (Configuration.make n l r) =
      ['.', '.', '.'] ++ lstripB l ++ ['['] ++ natDigits n.toNat ++ [']'] ++
        rstripB r ++ ['.', '.', '.'] := by
    show ['.', '.', '.'] ++ lstripB l ++ ['['] ++ intStr n ++ [']'] ++
        rstripB r ++ ['.', '.', '.'] = _
    rw [intStr, if_neg (by omega)]
  have hone : ∀ (st : ScanSt), List.foldlM (scanChar A) st ['['] =
      .ok { st with curr := Buf.num } := by
    intro st
    rw [foldlM_scan_cons, scanChar_open A hop]
    rfl
  have htwo : ∀ (st : ScanSt), List.foldlM (scanChar A) st [']'] =
      .ok { st with curr := Buf.right } := by
    intro st
    rw [foldlM_scan_cons, scanChar_close A hcl]
    rfl
  have s₁ : List.foldlM (scanChar A) (⟨[], [], [], Buf.left⟩ : ScanSt)
      (['.', '.', '.'] ++ lstripB l) = .ok ⟨lstripB l, [], [], Buf.left⟩ := by
    refine scan_seq A _ _ _ _ _ (scan_dots A hdot _) ?_
    have := scan_left_chars A (lstripB l) ⟨[], [], [], Buf.left⟩ hml rfl
    simpa using this
  have s₂ : List.foldlM (scanChar A) (⟨[], [], [], Buf.left⟩ : ScanSt)
      (['.', '.', '.'] ++ lstripB l ++ ['[']) =
      .ok ⟨lstripB l, [], [], Buf.num⟩ :=
    scan_seq A _ _ _ _ _ s₁ (hone _)
  have s₃ : List.foldlM (scanChar A) (⟨[], [], [], Buf.left⟩ : ScanSt)
      (['.', '.', '.'] ++ lstripB l ++ ['['] ++ natDigits n.toNat) =
      .ok ⟨lstripB l, natDigits n.toNat, [], Buf.num⟩ := by
    refine scan_seq A _ _ _ _ _ s₂ ?_
    have := scan_digits A (natDigits n.toNat) ⟨lstripB l, [], [], Buf.num⟩
      (natDigits_spec n.toNat).1 rfl
    simpa using this
  have s₄ : List.foldlM (scanChar A) (⟨[], [], [], Buf.left⟩ : ScanSt)
      (['.', '.', '.'] ++ lstripB l ++ ['['] ++ natDigits n.toNat ++ [']']) =
      .ok ⟨lstripB l, natDigits n.toNat, [], Buf.right⟩ :=
    scan_seq A _ _ _ _ _ s₃ (htwo _)
  have s₅ : List.foldlM (scanChar A) (⟨[], [], [], Buf.left⟩ : ScanSt)
      (['.', '.', '.'] ++ lstripB l ++ ['['] ++ natDigits n.toNat ++ [']'] ++
        rstripB r) =
      .ok ⟨lstripB l, natDigits n.toNat, rstripB r, Buf.right⟩ := by
    refine scan_seq A _ _ _ _ _ s₄ ?_
    have := scan_right_chars A (rstripB r)
      ⟨lstripB l, natDigits n.toNat, [], Buf.right⟩ hmr rfl
    simpa using this
  have s₆ : List.foldlM (scanChar A) (⟨[], [], [], Buf.left⟩ : ScanSt)
      (['.', '.', '.'] ++ lstripB l ++ ['['] ++ natDigits n.toNat ++ [']'] ++
        rstripB r ++ ['.', '.', '.']) =
      .ok ⟨lstripB l, natDigits n.toNat, rstripB r, Buf.right⟩ :=
    scan_seq A _ _ _ _ _ s₅ (scan_dots A hdot _)
  unfold Configuration.parse
  rw [hstr, s₆]
  show (match pyInt (natDigits n.toNat) with
    | none => ParseResult.badInt
    | some k => ParseResult.ok (Configuration.make k (lstripB l) (rstripB r))) = _
  rw [pyInt_natDigits]
  show ParseResult.ok (Configuration.make ((n.toNat : Int)) (lstripB l) (rstripB r)) = _
  rw [Int.toNat_of_nonneg hn]
  show ParseResult.ok ⟨n, lstripB (lstripB l), rstripB (rstripB r)⟩ = _
  rw [lstripB_idem, rstripB_idem]
  rfl

/-- A valid machine whose tape alphabet contains the period character. -/
def dotTM : TM :=
  { num_states := 1, trans := [], input_alphabet := {'.'},
    tape_alphabet := {'.', 'B'}, start := 1, end_ := 1 }

/-- Counterexample to claim C4: `dotTM` is a constructible machine, its
run on input "." (trace recorded) produces the configuration
`(1, "", ".")`, yet parsing that configuration's canonical string form
with the machine's tape alphabet does not give the configuration back —
the ellipsis dots of the serialization are themselves alphabet characters
and are absorbed into the left and right parts. -/
theorem c4_counterexample :
    (TM.post_init dotTM).isSome = true ∧
    TM.call dotTM ['.'] true =
      .halted ['.'] (some [Configuration.make 1 [] ['.']]) ∧
    Configuration.parse (Configuration.str (Configuration.make 1 [] ['.']))
      dotTM.tape_alphabet ≠ .ok (Configuration.make 1 [] ['.']) := by
  refine ⟨by decide, ?_, by decide⟩
  rw [TM.call, TM.callLoop.eq_def]
  decide

/-- Witness for C4: the amended round trip at a concrete configuration and
alphabet satisfying the added conditions. -/
theorem c4_witness :
    Configuration.parse (Configuration.str (Configuration.make 1 ['a'] ['a']))
      ({'a', 'B'} : Finset Char) = .ok (Configuration.make 1 ['a'] ['a']) :=
  c4_amended 1 ['a'] ['a'] {'a', 'B'} (by decide) (by decide) (by decide)
    (by decide) (by decide) (by decide)
